import Mathlib

/-!
Verification of the `health` package of ancientlore/topdog: a concurrent
health-check runner (`Tester.Run`), its aggregate predicate
(`Results.Failed`), and the background scheduler (`Ticker`).

The Go code is shallowly embedded.  `Tester.Run` launches one goroutine per
registered test; each goroutine sends exactly one `tp{name, result}` message
on a shared channel unless it stalls past the deadline.  We model one
execution of `Run` by the list `arrived` of test names whose messages the
collection loop receives before the context deadline fires, in arrival
order; the behaviour of each test (return nil, return an error, panic, or
stall) is recorded in the test table itself.  The collection loop of the
source exits normally when every test has reported (`count` reaches
`len(t.Tests)`) and otherwise takes the `<-done` branch, synthesizing a
failing result with message `ctx.Err().Error()` for every test with no
recorded result.
-/

set_option maxHeartbeats 1000000

namespace Health

/-- Embeds the Go struct `Result` (part_002 lines 206-211): the outcome of a
single test, with `Healthy`, `Message` and `Error` (stack trace) fields. -/
structure Result where
  Healthy : Bool
  Message : String
  Error   : String
deriving Repr, DecidableEq

/-- Embeds the Go type `Results = map[string]Result` as an association list
of name/result pairs (a Go map has distinct keys; insertion overwrites). -/
abbrev Results := List (String × Result)

/-- Go map indexing `r[k]`, returning `none` when the key is absent. -/
def Results.lookup : Results → String → Option Result
  | [], _ => none
  | (k2, v) :: rest, k => if k2 = k then some v else Results.lookup rest k

/-- Key-membership test for a `Results` map (`_, ok := r[k]`). -/
def Results.containsKey (r : Results) (k : String) : Bool :=
  match r with
  | [] => false
  | (k2, _) :: rest => if k2 = k then true else Results.containsKey rest k

/-- Go map assignment `r[k] = v`: overwrite the binding if the key is
present, otherwise add it. -/
def Results.set : Results → String → Result → Results
  | [], k, v => [(k, v)]
  | (k2, v2) :: rest, k, v =>
      if k2 = k then (k2, v) :: rest else (k2, v2) :: Results.set rest k v

/-- Embeds `Results.Failed` (part_002 lines 247-255): iterate over the map
values; return true as soon as some value has `Healthy != true`. -/
def Results.Failed (r : Results) : Bool :=
  match r with
  | [] => false
  | (_, x) :: rest => if x.Healthy != true then true else Results.Failed rest

/-- The dynamic value passed to `panic()` by a test, as discriminated by the
`switch err.(type)` in the recover handler: an `error`, a `string`, or
anything else. -/
inductive PanicValue where
  | err (msg : String)
  | str (s : String)
  | other
deriving Repr, DecidableEq

/-- The `desc` computed by the recover handler (part_002 lines 302-309):
`err.(error).Error()` for an error, the string itself for a string, and the
literal "PANIC" otherwise. -/
def panicDesc : PanicValue → String
  | .err m => m
  | .str s => s
  | .other => "PANIC"

/-- The runtime behaviour of one test function in one run: it returns (with
`none` for a nil error), panics (the recover handler captures `stack` from
`runtime.Stack`), or stalls without reporting before the deadline. -/
inductive ProbeBehavior where
  | ret (err : Option String)
  | panics (v : PanicValue) (stack : String)
  | stalls
deriving Repr, DecidableEq

/-- The message a test goroutine sends on the channel (part_002 lines
296-319): a healthy `Result` on nil error, `{Healthy: false, Message:
err.Error()}` on a non-nil error, and `{Healthy: false, Message: desc,
Error: stack}` from the recover handler on panic.  A stalling test sends
nothing (`none`). -/
def goroutineSend : ProbeBehavior → Option Result
  | .ret none => some ⟨true, "", ""⟩
  | .ret (some m) => some ⟨false, m, ""⟩
  | .panics v stack => some ⟨false, panicDesc v, stack⟩
  | .stalls => none

/-- Embeds `TestFuncs = map[string]TestFunc`, recording for each named test
its behaviour in the run under consideration. -/
abbrev TestFuncs := List (String × ProbeBehavior)

/-- Lookup of a test's behaviour by name. -/
def behaviorOf : TestFuncs → String → Option ProbeBehavior
  | [], _ => none
  | (k2, b) :: rest, k => if k2 = k then some b else behaviorOf rest k

/-- The result carried by the channel message of the goroutine named `k`,
if that goroutine reports at all. -/
def sentResult (tests : TestFuncs) (k : String) : Option Result :=
  (behaviorOf tests k).bind goroutineSend

/-- A log-callback invocation `t.Log(name, message, errorText)`. -/
abbrev LogEvent := String × String × String

/-- One iteration of the collection loop taking the `case r := <-rc` branch
(part_002 lines 324-329) for the message of the goroutine named `name`:
record `results[r.name] = *r.result` and, when the result is unhealthy and
`t.Log != nil` (`logEnabled`), invoke the log callback. -/
def collectStep (tests : TestFuncs) (logEnabled : Bool)
    (st : Results × List LogEvent) (name : String) : Results × List LogEvent :=
  match sentResult tests name with
  | some res =>
      (st.1.set name res,
       if !res.Healthy && logEnabled then st.2 ++ [(name, res.Message, res.Error)] else st.2)
  | none => st

/-- One iteration of the deadline-fill loop `for k2 := range t.Tests`
(part_002 lines 332-340): if `k2` has no recorded result, store
`Result{Healthy: false, Message: ctx.Err().Error()}` and log it. -/
def deadlineStep (ctxMsg : String) (logEnabled : Bool)
    (st : Results × List LogEvent) (k2 : String) : Results × List LogEvent :=
  if st.1.containsKey k2 then st
  else (st.1.set k2 ⟨false, ctxMsg, ""⟩,
        if logEnabled then st.2 ++ [(k2, ctxMsg, "")] else st.2)

/-- Embeds `Tester.Run` (part_002 lines 280-346) together with the trace of
log-callback invocations.  `arrived` is the list of test names whose channel
messages the collection loop receives before the deadline; the loop exits
normally when `count` reaches `len(t.Tests)` (here: `arrived` covers every
test) and otherwise takes the `<-done` branch, running the fill loop with
`ctxMsg = ctx.Err().Error()`.  When `len(t.Tests) == 0` the guard at line
282 skips everything and the empty map is returned. -/
def Tester.RunLog (tests : TestFuncs) (arrived : List String) (ctxMsg : String)
    (logEnabled : Bool) : Results × List LogEvent :=
  if tests.length > 0 then
    if arrived.length = tests.length then
      arrived.foldl (collectStep tests logEnabled) ([], [])
    else
      (tests.map Prod.fst).foldl (deadlineStep ctxMsg logEnabled)
        (arrived.foldl (collectStep tests logEnabled) ([], []))
  else ([], [])

/-- `Tester.Run`: the `Results` returned to the caller. -/
def Tester.Run (tests : TestFuncs) (arrived : List String) (ctxMsg : String) : Results :=
  (Tester.RunLog tests arrived ctxMsg true).1

/-- Well-formedness of one execution trace of `Run`: the Go map `t.Tests`
has distinct keys; each goroutine sends at most one message, so the names
received before the deadline are distinct, are names of registered tests,
and belong to goroutines that actually report (do not stall). -/
def ValidTrace (tests : TestFuncs) (arrived : List String) : Prop :=
  (tests.map Prod.fst).Nodup ∧ arrived.Nodup ∧
  ∀ n ∈ arrived, (sentResult tests n).isSome

/-- The log invocation caused by the arrival of test `n`'s channel message,
if that arrival logs at all (part_002 lines 327-329). -/
def arrivalEvent (tests : TestFuncs) (n : String) : Option LogEvent :=
  match sentResult tests n with
  | some res => if res.Healthy then none else some (n, res.Message, res.Error)
  | none => none

/-- A `Results` map is complete for a test table when its key set is
exactly the set of registered test names. -/
def CompleteFor (tests : TestFuncs) (r : Results) : Prop :=
  ∀ k, r.containsKey k = true ↔ k ∈ tests.map Prod.fst

/-! ### The `Ticker` -/

/-- Go maps are reference values.  To state that `Ticker.GetResults`
returns a *defensive copy* we make the heap explicit: a store of map
contents addressed by allocation index. -/
structure Heap where
  cells : List Results

/-- `make(Results)` followed by population: allocate a fresh cell. -/
def Heap.alloc (h : Heap) (r : Results) : Heap × Nat :=
  (⟨h.cells ++ [r]⟩, h.cells.length)

/-- Dereference a map reference. -/
def Heap.read (h : Heap) (ref : Nat) : Results :=
  (h.cells[ref]?).getD []

/-- Mutate the map a reference points to (what a caller does to the map
value returned by `GetResults`). -/
def Heap.write (h : Heap) (ref : Nat) (r : Results) : Heap :=
  ⟨h.cells.set ref r⟩

/-- The part of a `Ticker`'s state read by `GetResults`/`ServeHTTP`:
`resultsRef` is the `results` field, a reference to a map, `none` while the
field still holds its zero value (nil map — no run has completed yet). -/
structure TickerState where
  resultsRef : Option Nat

/-- The copy loop of `GetResults` (part_002 lines 80-83):
`r := make(Results); for k, v := range src { r[k] = v }`. -/
def copyEntries (src : Results) : Results :=
  src.foldl (fun acc kv => acc.set kv.1 kv.2) []

/-- Embeds `Ticker.GetResults` (part_002 lines 76-85): allocate a fresh
map, copy every entry of the cached map into it (ranging over a nil map
performs no iterations), and return the fresh reference. -/
def Ticker.GetResults (h : Heap) (tick : TickerState) : Heap × Nat :=
  let contents :=
    match tick.resultsRef with
    | some ref => copyEntries (Heap.read h ref)
    | none => []
  Heap.alloc h contents

/-- Embeds the status-code choice of `Ticker.ServeHTTP` (part_002 lines
92-101): a nil cached map is replaced by a fresh empty one, then the status
is 500 when `res.Failed()` and 200 otherwise.  The argument is the contents
of `tick.results`, `none` for a nil map. -/
def Ticker.serveStatus (cache : Option Results) : Nat :=
  let res :=
    match cache with
    | none => ([] : Results)
    | some r => r
  if Results.Failed res then 500 else 200

/-- The writer side of one or more scheduled background runs, for snapshot
isolation.  `Ticker.runOnce` (part_002 lines 26-31) first computes
`r := tick.Run()` entirely outside the lock and only then stores it into
the shared `tick.results` under the write lock.  `cell` is the shared
`tick.results`; `pending` is the writer's local `r` between those two
steps. -/
structure RunnerWorld where
  cell : Results
  pending : Option Results

/-- Interleaving steps of `runOnce` against concurrent readers: `compute`
finishes `tick.Run()` off-lock (the shared cell is untouched) and `swap` is
the locked assignment `tick.results = r`.  Readers may run between any two
steps. -/
inductive TickStep (tests : TestFuncs) : RunnerWorld → RunnerWorld → Prop
  | compute (c : Results) (arrived : List String) (msg : String)
      (hv : ValidTrace tests arrived) :
      TickStep tests ⟨c, none⟩ ⟨c, some (Tester.Run tests arrived msg)⟩
  | swap (c r : Results) : TickStep tests ⟨c, some r⟩ ⟨r, none⟩

/-- Reachability of runner worlds by interleaved writer steps. -/
def TickReaches (tests : TestFuncs) : RunnerWorld → RunnerWorld → Prop :=
  Relation.ReflTransGen (TickStep tests)

/-! ### `Ticker` lifecycle (`Start`/`Stop`) -/

/-- Lifecycle state of a `Ticker`: `cancel` is the stored
`context.CancelFunc` (`none` when nil), identified by the token of the
cycle it cancels; `active` lists the tokens of background `run` loops whose
context has not been cancelled (a cancelled loop exits at its next select
and no longer writes results); `next` generates fresh tokens. -/
structure LifeState where
  cancel : Option Nat
  active : List Nat
  next : Nat
deriving Repr, DecidableEq

/-- Embeds `Ticker.Stop` (part_002 lines 66-73): if `cancel != nil`, call
it (cancelling the corresponding loop's context, so that loop is no longer
active) and set it to nil; otherwise do nothing. -/
def Ticker.Stop (s : LifeState) : LifeState :=
  match s.cancel with
  | some t => ⟨none, s.active.erase t, s.next⟩
  | none => s

/-- Embeds `Ticker.Start` (part_002 lines 53-63): first call `Stop`, then
create a fresh cancellable context, store its cancel function, and launch a
new background `run` loop. -/
def Ticker.Start (s : LifeState) : LifeState :=
  let s1 := Ticker.Stop s
  ⟨some s1.next, s1.active ++ [s1.next], s1.next + 1⟩

/-- One lifecycle call made by a user of the `Ticker`. -/
inductive LifeOp where
  | start
  | stop
deriving Repr, DecidableEq

/-- Apply one lifecycle call. -/
def applyOp (s : LifeState) : LifeOp → LifeState
  | .start => Ticker.Start s
  | .stop => Ticker.Stop s

/-- A freshly constructed `Ticker`: `cancel` is nil and no loop runs. -/
def initLife : LifeState := ⟨none, [], 0⟩

/-- The lifecycle state after an arbitrary sequence of Start/Stop calls on
a fresh `Ticker`. -/
def runOps (ops : List LifeOp) : LifeState :=
  ops.foldl applyOp initLife

/-! ### Basic lemmas about the `Results` map operations -/

theorem Results.lookup_isSome (r : Results) (k : String) :
    (r.lookup k).isSome = r.containsKey k := by
  induction r with
  | nil => rfl
  | cons p rest ih =>
      obtain ⟨k2, v⟩ := p
      by_cases h : k2 = k <;> simp [Results.lookup, Results.containsKey, h, ih]

theorem Results.lookup_set_self (r : Results) (k : String) (v : Result) :
    (r.set k v).lookup k = some v := by
  induction r with
  | nil => simp [Results.set, Results.lookup]
  | cons p rest ih =>
      obtain ⟨k2, v2⟩ := p
      by_cases h : k2 = k <;> simp [Results.set, Results.lookup, h, ih]

theorem Results.lookup_set_ne (r : Results) {k k' : String} (v : Result) (h : k ≠ k') :
    (r.set k v).lookup k' = r.lookup k' := by
  induction r with
  | nil => simp [Results.set, Results.lookup, h]
  | cons p rest ih =>
      obtain ⟨k2, v2⟩ := p
      by_cases h2 : k2 = k
      · subst h2
        simp [Results.set, Results.lookup, h]
      · by_cases h3 : k2 = k'
        · subst h3
          simp [Results.set, Results.lookup, h2, Ne.symm h]
        · simp [Results.set, Results.lookup, h2, h3, ih]

theorem Results.containsKey_set (r : Results) (k k' : String) (v : Result) :
    (r.set k v).containsKey k' = if k = k' then true else r.containsKey k' := by
  induction r with
  | nil => simp [Results.set, Results.containsKey]
  | cons p rest ih =>
      obtain ⟨k2, v2⟩ := p
      by_cases h2 : k2 = k
      · subst h2
        by_cases h3 : k2 = k' <;> simp [Results.set, Results.containsKey, h3]
      · by_cases h3 : k2 = k'
        · subst h3
          have hkk : ¬k = k2 := fun hh => h2 hh.symm
          simp [Results.set, Results.containsKey, h2, hkk]
        · simp [Results.set, Results.containsKey, h2, h3, ih]

theorem Results.Failed_iff (r : Results) :
    Results.Failed r = true ↔ ∃ p ∈ r, p.2.Healthy = false := by
  induction r with
  | nil => simp [Results.Failed]
  | cons p rest ih =>
      obtain ⟨k2, v⟩ := p
      by_cases h : v.Healthy = true
      · simp [Results.Failed, h, ih]
      · simp only [Bool.not_eq_true] at h
        simp [Results.Failed, h]

/-! ### Lemmas about behaviour lookup -/

theorem behaviorOf_mem {tests : TestFuncs} {n : String} {b : ProbeBehavior}
    (h : behaviorOf tests n = some b) : n ∈ tests.map Prod.fst := by
  induction tests with
  | nil => simp [behaviorOf] at h
  | cons p rest ih =>
      obtain ⟨k2, b2⟩ := p
      by_cases h2 : k2 = n
      · subst h2; simp
      · simp only [behaviorOf, h2, if_false] at h
        simp [ih h]

theorem behaviorOf_of_mem {tests : TestFuncs} {n : String} {b : ProbeBehavior}
    (hnd : (tests.map Prod.fst).Nodup) (h : (n, b) ∈ tests) :
    behaviorOf tests n = some b := by
  induction tests with
  | nil => simp at h
  | cons p rest ih =>
      obtain ⟨k2, b2⟩ := p
      simp only [List.map_cons, List.nodup_cons] at hnd
      rcases List.mem_cons.mp h with h1 | h1
      · rw [Prod.mk.injEq] at h1
        obtain ⟨hn, hb⟩ := h1
        simp [behaviorOf, hn, hb]
      · have hne : k2 ≠ n := by
          intro hkn
          exact hnd.1 (hkn ▸ List.mem_map_of_mem Prod.fst h1)
        simp only [behaviorOf, hne, if_false]
        exact ih hnd.2 h1

theorem sentResult_mem {tests : TestFuncs} {n : String}
    (h : (sentResult tests n).isSome = true) : n ∈ tests.map Prod.fst := by
  unfold sentResult at h
  cases hb : behaviorOf tests n with
  | none => rw [hb] at h; simp at h
  | some b => exact behaviorOf_mem hb

/-! ### Characterizing the collection loop -/

theorem collect_lookup (tests : TestFuncs) (log : Bool) (arrived : List String)
    (st : Results × List LogEvent) (hnd : arrived.Nodup)
    (hv : ∀ n ∈ arrived, (sentResult tests n).isSome = true) (k : String) :
    (arrived.foldl (collectStep tests log) st).1.lookup k =
      if k ∈ arrived then sentResult tests k else st.1.lookup k := by
  induction arrived generalizing st with
  | nil => simp
  | cons a rest ih =>
      simp only [List.foldl_cons]
      simp only [List.nodup_cons] at hnd
      obtain ⟨res, hres⟩ := Option.isSome_iff_exists.mp (hv a (List.mem_cons_self a rest))
      have hstep : (collectStep tests log st a).1 = st.1.set a res := by
        simp [collectStep, hres]
      rw [ih (collectStep tests log st a) hnd.2 (fun n hn => hv n (List.mem_cons_of_mem a hn))]
      by_cases hk : k ∈ rest
      · simp [hk]
      · by_cases hka : k = a
        · subst hka
          simp [hk, hstep, Results.lookup_set_self, hres]
        · have hne : a ≠ k := fun hh => hka hh.symm
          simp [hk, hka, hstep, Results.lookup_set_ne st.1 res hne]

theorem collect_events (tests : TestFuncs) (arrived : List String)
    (st : Results × List LogEvent) :
    (arrived.foldl (collectStep tests true) st).2 =
      st.2 ++ arrived.filterMap (arrivalEvent tests) := by
  induction arrived generalizing st with
  | nil => simp
  | cons a rest ih =>
      simp only [List.foldl_cons, List.filterMap_cons]
      rw [ih]
      cases hres : sentResult tests a with
      | none => simp [collectStep, hres, arrivalEvent]
      | some res =>
          by_cases hh : res.Healthy
          · simp [collectStep, hres, arrivalEvent, hh]
          · simp [collectStep, hres, arrivalEvent, hh]

theorem collect_events_off (tests : TestFuncs) (arrived : List String)
    (st : Results × List LogEvent) :
    (arrived.foldl (collectStep tests false) st).2 = st.2 := by
  induction arrived generalizing st with
  | nil => rfl
  | cons a rest ih =>
      simp only [List.foldl_cons]
      rw [ih]
      cases hres : sentResult tests a with
      | none => simp [collectStep, hres]
      | some res => simp [collectStep, hres]

theorem collect_fst_log (tests : TestFuncs) (log log' : Bool) (arrived : List String)
    (st st' : Results × List LogEvent) (h : st.1 = st'.1) :
    (arrived.foldl (collectStep tests log) st).1 =
      (arrived.foldl (collectStep tests log') st').1 := by
  induction arrived generalizing st st' with
  | nil => simpa using h
  | cons a rest ih =>
      simp only [List.foldl_cons]
      apply ih
      cases hres : sentResult tests a with
      | none => simp [collectStep, hres, h]
      | some res => simp [collectStep, hres, h]

/-! ### Characterizing the deadline-fill loop -/

theorem fill_lookup (msg : String) (log : Bool) (keys : List String)
    (st : Results × List LogEvent) (hnd : keys.Nodup) (k : String) :
    (keys.foldl (deadlineStep msg log) st).1.lookup k =
      if k ∈ keys ∧ st.1.containsKey k = false then some ⟨false, msg, ""⟩
      else st.1.lookup k := by
  induction keys generalizing st with
  | nil => simp
  | cons a rest ih =>
      simp only [List.foldl_cons]
      simp only [List.nodup_cons] at hnd
      by_cases hca : st.1.containsKey a
      · have hstep : deadlineStep msg log st a = st := by simp [deadlineStep, hca]
        rw [hstep, ih st hnd.2]
        by_cases hka : k = a
        · subst hka
          simp [hnd.1, hca]
        · simp [hka]
      · have hstep1 : (deadlineStep msg log st a).1 = st.1.set a ⟨false, msg, ""⟩ := by
          simp [deadlineStep, hca]
        rw [ih _ hnd.2]
        by_cases hka : k = a
        · subst hka
          simp [hnd.1, hstep1, Results.lookup_set_self, hca]
        · have hne : a ≠ k := fun hh => hka hh.symm
          simp [hka, hstep1, Results.containsKey_set, hne,
                Results.lookup_set_ne st.1 (⟨false, msg, ""⟩ : Result) hne]

theorem fill_events (msg : String) (keys : List String)
    (st : Results × List LogEvent) (hnd : keys.Nodup) :
    (keys.foldl (deadlineStep msg true) st).2 =
      st.2 ++ (keys.filter (fun k => !st.1.containsKey k)).map (fun k => (k, msg, "")) := by
  induction keys generalizing st with
  | nil => simp
  | cons a rest ih =>
      simp only [List.foldl_cons, List.filter_cons]
      simp only [List.nodup_cons] at hnd
      by_cases hca : st.1.containsKey a
      · have hstep : deadlineStep msg true st a = st := by simp [deadlineStep, hca]
        rw [hstep, ih st hnd.2]
        simp [hca]
      · have hstep : deadlineStep msg true st a =
            (st.1.set a ⟨false, msg, ""⟩, st.2 ++ [(a, msg, "")]) := by
          simp [deadlineStep, hca]
        rw [hstep, ih _ hnd.2]
        have hfilter : rest.filter
              (fun k => !(st.1.set a ⟨false, msg, ""⟩).containsKey k) =
            rest.filter (fun k => !st.1.containsKey k) := by
          apply List.filter_congr
          intro k hk
          have hne : ¬a = k := fun hh => hnd.1 (hh ▸ hk)
          simp [Results.containsKey_set, hne]
        simp [hca, hfilter, List.append_assoc]

theorem fill_events_off (msg : String) (keys : List String)
    (st : Results × List LogEvent) :
    (keys.foldl (deadlineStep msg false) st).2 = st.2 := by
  induction keys generalizing st with
  | nil => rfl
  | cons a rest ih =>
      simp only [List.foldl_cons]
      rw [ih]
      by_cases hca : st.1.containsKey a <;> simp [deadlineStep, hca]

theorem fill_fst_log (msg : String) (log log' : Bool) (keys : List String)
    (st st' : Results × List LogEvent) (h : st.1 = st'.1) :
    (keys.foldl (deadlineStep msg log) st).1 =
      (keys.foldl (deadlineStep msg log') st').1 := by
  induction keys generalizing st st' with
  | nil => simpa using h
  | cons a rest ih =>
      simp only [List.foldl_cons]
      apply ih
      by_cases hca : st.1.containsKey a <;> simp [deadlineStep, hca, ← h]

/-! ### Characterizing `Tester.Run` -/

theorem coverage_of_length (tests : TestFuncs) (arrived : List String)
    (hv : ValidTrace tests arrived) (hlen : arrived.length = tests.length) :
    ∀ k, k ∈ tests.map Prod.fst → k ∈ arrived := by
  obtain ⟨hndT, hndA, hmem⟩ := hv
  have hsub : arrived ⊆ tests.map Prod.fst := fun n hn => sentResult_mem (hmem n hn)
  have hsp := hndA.subperm hsub
  have hperm : arrived.Perm (tests.map Prod.fst) := by
    apply hsp.perm_of_length_le
    simp [hlen]
  intro k hk
  exact hperm.mem_iff.mpr hk

theorem Run_lookup (tests : TestFuncs) (arrived : List String) (msg : String)
    (hv : ValidTrace tests arrived) (k : String) :
    (Tester.Run tests arrived msg).lookup k =
      if k ∈ arrived then sentResult tests k
      else if k ∈ tests.map Prod.fst then some ⟨false, msg, ""⟩
      else none := by
  obtain ⟨hndT, hndA, hmem⟩ := hv
  unfold Tester.Run Tester.RunLog
  by_cases hpos : tests.length > 0
  · rw [if_pos hpos]
    by_cases hlen : arrived.length = tests.length
    · rw [if_pos hlen]
      rw [collect_lookup tests true arrived ([], []) hndA hmem k]
      by_cases hka : k ∈ arrived
      · simp [hka]
      · have hcov := coverage_of_length tests arrived ⟨hndT, hndA, hmem⟩ hlen
        have hnm : k ∉ tests.map Prod.fst := fun hk => hka (hcov k hk)
        simp [hka, hnm, Results.lookup]
    · rw [if_neg hlen]
      rw [fill_lookup msg true (tests.map Prod.fst) _ hndT k]
      have hlk := collect_lookup tests true arrived ([], []) hndA hmem k
      have hck : ((arrived.foldl (collectStep tests true) ([], [])).1.containsKey k)
          = (if k ∈ arrived then true else false) := by
        rw [← Results.lookup_isSome, hlk]
        by_cases hka : k ∈ arrived
        · simp [hka, hmem k hka]
        · simp [hka, Results.lookup]
      by_cases hka : k ∈ arrived
      · simp [hck, hka, hlk]
      · by_cases hnm : k ∈ tests.map Prod.fst
        · simp [hck, hka, hnm, hlk]
        · simp [hck, hka, hnm, hlk, Results.lookup]
  · rw [if_neg hpos]
    have hT : tests = [] := by
      cases tests with
      | nil => rfl
      | cons p r => simp at hpos
    subst hT
    have hA : arrived = [] := by
      cases arrived with
      | nil => rfl
      | cons a r =>
          have := hmem a (List.mem_cons_self a r)
          simp [sentResult, behaviorOf] at this
    subst hA
    simp [Results.lookup]

/-! ### Claim theorems -/

/-- **C1** (Completeness of `Run`): for every registered test set and every
execution trace, `Tester.Run` returns a `Results` map whose key set equals
the registered test names exactly, and every test with no recorded outcome
before the deadline fires is given a failing outcome whose message is the
deadline/cancellation reason `ctx.Err().Error()`. -/
theorem C1_run_completeness (tests : TestFuncs) (arrived : List String) (msg : String)
    (hv : ValidTrace tests arrived) :
    (∀ k, ((Tester.Run tests arrived msg).lookup k).isSome = true ↔
      k ∈ tests.map Prod.fst) ∧
    (∀ k, k ∈ tests.map Prod.fst → k ∉ arrived →
      (Tester.Run tests arrived msg).lookup k = some ⟨false, msg, ""⟩) := by
  constructor
  · intro k
    rw [Run_lookup tests arrived msg hv k]
    by_cases hka : k ∈ arrived
    · simp only [hka, if_true]
      exact ⟨fun _ => sentResult_mem (hv.2.2 k hka), fun _ => hv.2.2 k hka⟩
    · by_cases hnm : k ∈ tests.map Prod.fst <;> simp [hka, hnm]
  · intro k hnm hka
    rw [Run_lookup tests arrived msg hv k]
    simp [hka, hnm]

/-- Witness for C1: a run with one reporting test and one stalled test. -/
theorem C1_run_completeness_witness :
    ValidTrace [("a", ProbeBehavior.ret none), ("b", ProbeBehavior.stalls)] ["a"] ∧
    (Tester.Run [("a", ProbeBehavior.ret none), ("b", ProbeBehavior.stalls)] ["a"]
        "context deadline exceeded").lookup "b" =
      some ⟨false, "context deadline exceeded", ""⟩ := by
  have hv : ValidTrace [("a", ProbeBehavior.ret none), ("b", ProbeBehavior.stalls)] ["a"] :=
    ⟨by decide, by decide, by decide⟩
  exact ⟨hv, (C1_run_completeness _ _ "context deadline exceeded" hv).2 "b"
    (by decide) (by decide)⟩

/-- **C2** (Panic containment): a test that panics never prevents `Run`
from producing a complete result map; the panicking test's entry is
unhealthy, its message is the fault description computed by the recover
handler, and its diagnostic is the captured (non-empty) stack trace. -/
theorem C2_panic_containment (tests : TestFuncs) (arrived : List String) (msg : String)
    (name : String) (v : PanicValue) (stack : String)
    (hv : ValidTrace tests arrived)
    (hmem : (name, ProbeBehavior.panics v stack) ∈ tests)
    (harr : name ∈ arrived) (hstack : stack ≠ "") :
    (Tester.Run tests arrived msg).lookup name = some ⟨false, panicDesc v, stack⟩ ∧
    (∃ res, (Tester.Run tests arrived msg).lookup name = some res ∧
      res.Healthy = false ∧ res.Error ≠ "") ∧
    (∀ k, ((Tester.Run tests arrived msg).lookup k).isSome = true ↔
      k ∈ tests.map Prod.fst) := by
  have hb : behaviorOf tests name = some (ProbeBehavior.panics v stack) :=
    behaviorOf_of_mem hv.1 hmem
  have hsent : sentResult tests name = some ⟨false, panicDesc v, stack⟩ := by
    simp [sentResult, hb, goroutineSend]
  refine ⟨?_, ?_, ?_⟩
  · rw [Run_lookup tests arrived msg hv name]
    simp [harr, hsent]
  · refine ⟨⟨false, panicDesc v, stack⟩, ?_, rfl, hstack⟩
    rw [Run_lookup tests arrived msg hv name]
    simp [harr, hsent]
  · intro k
    rw [Run_lookup tests arrived msg hv k]
    by_cases hka : k ∈ arrived
    · simp only [hka, if_true]
      exact ⟨fun _ => sentResult_mem (hv.2.2 k hka), fun _ => hv.2.2 k hka⟩
    · by_cases hnm : k ∈ tests.map Prod.fst <;> simp [hka, hnm]

/-- Witness for C2: a test panicking with the string "boom". -/
theorem C2_panic_containment_witness :
    (Tester.Run [("p", ProbeBehavior.panics (PanicValue.str "boom") "trace")] ["p"]
        "context deadline exceeded").lookup "p" = some ⟨false, "boom", "trace"⟩ := by
  have hv : ValidTrace [("p", ProbeBehavior.panics (PanicValue.str "boom") "trace")] ["p"] :=
    ⟨by decide, by decide, by decide⟩
  exact (C2_panic_containment _ _ "context deadline exceeded" "p"
    (PanicValue.str "boom") "trace" hv (by decide) (by decide) (by decide)).1

/-- **C3** (Aggregate predicate): `Results.Failed` is true iff at least one
entry is unhealthy; in particular it is true on `{a: healthy, b: unhealthy}`
and false on `{a: healthy, b: healthy}`. -/
theorem C3_failed_iff :
    (∀ r : Results, Results.Failed r = true ↔ ∃ p ∈ r, p.2.Healthy = false) ∧
    Results.Failed [("a", ⟨true, "", ""⟩), ("b", ⟨false, "x", ""⟩)] = true ∧
    Results.Failed [("a", ⟨true, "", ""⟩), ("b", ⟨true, "", ""⟩)] = false :=
  ⟨Results.Failed_iff, by decide, by decide⟩

/-- **C4** (Vacuous success): with no registered tests, `Run` returns the
empty map whatever the trace, and `Failed` on that map is false. -/
theorem C4_vacuous_success (arrived : List String) (msg : String) :
    Tester.Run [] arrived msg = [] ∧
    Results.Failed (Tester.Run [] arrived msg) = false := by
  constructor
  · simp [Tester.Run, Tester.RunLog]
  · simp [Tester.Run, Tester.RunLog, Results.Failed]

/-- **C5** (Outcome well-formedness): in every map produced by `Run`, an
entry with `Healthy = true` has empty `Message` and empty `Error`. -/
theorem C5_healthy_wellformed (tests : TestFuncs) (arrived : List String) (msg : String)
    (hv : ValidTrace tests arrived) (k : String) (res : Result)
    (hlk : (Tester.Run tests arrived msg).lookup k = some res)
    (hh : res.Healthy = true) :
    res.Message = "" ∧ res.Error = "" := by
  rw [Run_lookup tests arrived msg hv k] at hlk
  by_cases hka : k ∈ arrived
  · rw [if_pos hka] at hlk
    cases hb : behaviorOf tests k with
    | none => simp [sentResult, hb] at hlk
    | some b =>
        simp only [sentResult, hb, Option.some_bind] at hlk
        cases b with
        | ret err =>
            cases err with
            | none =>
                simp only [goroutineSend] at hlk
                injection hlk with hlk2
                subst hlk2
                exact ⟨rfl, rfl⟩
            | some m =>
                simp only [goroutineSend] at hlk
                injection hlk with hlk2
                subst hlk2
                simp at hh
        | panics v stack =>
            simp only [goroutineSend] at hlk
            injection hlk with hlk2
            subst hlk2
            simp at hh
        | stalls => simp [goroutineSend] at hlk
  · by_cases hnm : k ∈ tests.map Prod.fst
    · rw [if_neg hka, if_pos hnm] at hlk
      injection hlk with hlk2
      subst hlk2
      simp at hh
    · rw [if_neg hka, if_neg hnm] at hlk
      simp at hlk

/-- Witness for C5: a healthy outcome of a concrete run has empty texts. -/
theorem C5_healthy_wellformed_witness :
    (Tester.Run [("a", ProbeBehavior.ret none)] ["a"] "m").lookup "a" =
      some ⟨true, "", ""⟩ ∧
    ((⟨true, "", ""⟩ : Result).Message = "" ∧ (⟨true, "", ""⟩ : Result).Error = "") := by
  have hv : ValidTrace [("a", ProbeBehavior.ret none)] ["a"] :=
    ⟨by decide, by decide, by decide⟩
  have hlk : (Tester.Run [("a", ProbeBehavior.ret none)] ["a"] "m").lookup "a" =
      some ⟨true, "", ""⟩ := by decide
  exact ⟨hlk, C5_healthy_wellformed _ _ _ hv "a" _ hlk rfl⟩

/-! ### The log event trace -/

theorem collect_containsKey (tests : TestFuncs) (arrived : List String)
    (hnd : arrived.Nodup) (hv : ∀ n ∈ arrived, (sentResult tests n).isSome = true)
    (k : String) :
    ((arrived.foldl (collectStep tests true) ([], [])).1.containsKey k) =
      if k ∈ arrived then true else false := by
  rw [← Results.lookup_isSome, collect_lookup tests true arrived ([], []) hnd hv k]
  by_cases hka : k ∈ arrived
  · simp [hka, hv k hka]
  · simp [hka, Results.lookup]

theorem arrival_names (tests : TestFuncs) (arrived : List String) :
    (arrived.filterMap (arrivalEvent tests)).map (fun e => e.1) =
      arrived.filter (fun n =>
        match sentResult tests n with
        | some res => !res.Healthy
        | none => false) := by
  induction arrived with
  | nil => rfl
  | cons a rest ih =>
      simp only [List.filterMap_cons, List.filter_cons]
      cases hres : sentResult tests a with
      | none => simpa [arrivalEvent, hres] using ih
      | some res =>
          by_cases hh : res.Healthy
          · simpa [arrivalEvent, hres, hh] using ih
          · simpa [arrivalEvent, hres, hh] using ih

/-- **C6** (Logging side-channel): in one run the log callback fires
exactly once for every test whose final outcome is unhealthy — whether it
failed, panicked, or missed the deadline — and never for a healthy test;
and the presence of the callback (`t.Log != nil`) never changes the
returned `Results`. -/
theorem C6_logging (tests : TestFuncs) (arrived : List String) (msg : String)
    (hv : ValidTrace tests arrived) :
    (Tester.RunLog tests arrived msg false).1 = (Tester.RunLog tests arrived msg true).1 ∧
    (∀ name,
      List.count name ((Tester.RunLog tests arrived msg true).2.map (fun e => e.1)) =
        (match (Tester.Run tests arrived msg).lookup name with
         | some res => if res.Healthy then 0 else 1
         | none => 0)) := by
  obtain ⟨hndT, hndA, hmem⟩ := hv
  constructor
  · unfold Tester.RunLog
    by_cases hpos : tests.length > 0
    · rw [if_pos hpos, if_pos hpos]
      by_cases hlen : arrived.length = tests.length
      · rw [if_pos hlen, if_pos hlen]
        exact collect_fst_log tests false true arrived ([], []) ([], []) rfl
      · rw [if_neg hlen, if_neg hlen]
        exact fill_fst_log msg false true (tests.map Prod.fst) _ _
          (collect_fst_log tests false true arrived ([], []) ([], []) rfl)
    · rw [if_neg hpos, if_neg hpos]
  · intro name
    have hlkAll := Run_lookup tests arrived msg ⟨hndT, hndA, hmem⟩ name
    rw [hlkAll]
    unfold Tester.RunLog
    by_cases hpos : tests.length > 0
    · rw [if_pos hpos]
      by_cases hlen : arrived.length = tests.length
      · rw [if_pos hlen]
        rw [collect_events tests arrived ([], [])]
        have hcov := coverage_of_length tests arrived ⟨hndT, hndA, hmem⟩ hlen
        simp only [List.nil_append]
        rw [arrival_names]
        rw [List.count_eq_of_nodup (hndA.filter _)]
        by_cases hka : name ∈ arrived
        · obtain ⟨res, hres⟩ := Option.isSome_iff_exists.mp (hmem name hka)
          by_cases hh : res.Healthy
          · have hnm : name ∉ arrived.filter
                (fun n => match sentResult tests n with
                  | some res => !res.Healthy
                  | none => false) := by
              simp [List.mem_filter, hres, hh]
            simp [hnm, hka, hres, hh]
          · have hnm : name ∈ arrived.filter
                (fun n => match sentResult tests n with
                  | some res => !res.Healthy
                  | none => false) := by
              simp [List.mem_filter, hka, hres, hh]
            simp [hnm, hka, hres, hh]
        · have hnm : name ∉ tests.map Prod.fst := fun hk => hka (hcov name hk)
          have hnf : name ∉ arrived.filter
              (fun n => match sentResult tests n with
                | some res => !res.Healthy
                | none => false) := fun hmf => hka (List.mem_filter.mp hmf).1
          simp [hnf, hka, hnm]
      · rw [if_neg hlen]
        rw [fill_events msg (tests.map Prod.fst)
          (arrived.foldl (collectStep tests true) ([], [])) hndT]
        rw [collect_events tests arrived ([], [])]
        simp only [List.nil_append, List.map_append, List.count_append, List.map_map]
        rw [arrival_names]
        have hmapid : ((tests.map Prod.fst).filter
              (fun k => !(arrived.foldl (collectStep tests true) ([], [])).1.containsKey k)).map
              ((fun e : LogEvent => e.1) ∘ (fun k => (k, msg, ""))) =
            (tests.map Prod.fst).filter
              (fun k => !(arrived.foldl (collectStep tests true) ([], [])).1.containsKey k) := by
          have hcomp : ((fun e : LogEvent => e.1) ∘ (fun k : String => (k, msg, ""))) = id := rfl
          rw [hcomp, List.map_id]
        rw [hmapid]
        rw [List.count_eq_of_nodup (hndA.filter _), List.count_eq_of_nodup (hndT.filter _)]
        by_cases hka : name ∈ arrived
        · obtain ⟨res, hres⟩ := Option.isSome_iff_exists.mp (hmem name hka)
          have hnfB : name ∉ (tests.map Prod.fst).filter
              (fun k => !(arrived.foldl (collectStep tests true) ([], [])).1.containsKey k) := by
            intro hmf
            have := (List.mem_filter.mp hmf).2
            rw [collect_containsKey tests arrived hndA hmem name] at this
            simp [hka] at this
          by_cases hh : res.Healthy
          · have hnfA : name ∉ arrived.filter
                (fun n => match sentResult tests n with
                  | some res => !res.Healthy
                  | none => false) := by
              simp [List.mem_filter, hres, hh]
            simp [hnfA, hnfB, hka, hres, hh]
          · have hnfA : name ∈ arrived.filter
                (fun n => match sentResult tests n with
                  | some res => !res.Healthy
                  | none => false) := by
              simp [List.mem_filter, hka, hres, hh]
            simp [hnfA, hnfB, hka, hres, hh]
        · have hnfA : name ∉ arrived.filter
              (fun n => match sentResult tests n with
                | some res => !res.Healthy
                | none => false) := fun hmf => hka (List.mem_filter.mp hmf).1
          by_cases hnmem : name ∈ tests.map Prod.fst
          · have hnfB : name ∈ (tests.map Prod.fst).filter
                (fun k => !(arrived.foldl (collectStep tests true) ([], [])).1.containsKey k) := by
              rw [List.mem_filter]
              refine ⟨hnmem, ?_⟩
              rw [collect_containsKey tests arrived hndA hmem name]
              simp [hka]
            simp [hnfA, hnfB, hka, hnmem]
          · have hnfB : name ∉ (tests.map Prod.fst).filter
                (fun k => !(arrived.foldl (collectStep tests true) ([], [])).1.containsKey k) :=
              fun hmf => hnmem (List.mem_filter.mp hmf).1
            simp [hnfA, hnfB, hka, hnmem]
    · rw [if_neg hpos]
      have hT : tests = [] := by
        cases tests with
        | nil => rfl
        | cons p r => simp at hpos
      subst hT
      have hA : arrived = [] := by
        cases arrived with
        | nil => rfl
        | cons a r =>
            have := hmem a (List.mem_cons_self a r)
            simp [sentResult, behaviorOf] at this
      subst hA
      simp

/-- Witness for C6: one healthy and one failing test; the failing test is
logged exactly once. -/
theorem C6_logging_witness :
    ValidTrace [("a", ProbeBehavior.ret none), ("b", ProbeBehavior.ret (some "unreachable"))]
      ["a", "b"] ∧
    List.count "b"
      ((Tester.RunLog [("a", ProbeBehavior.ret none),
          ("b", ProbeBehavior.ret (some "unreachable"))] ["a", "b"] "m" true).2.map
        (fun e => e.1)) =
      (match (Tester.Run [("a", ProbeBehavior.ret none),
          ("b", ProbeBehavior.ret (some "unreachable"))] ["a", "b"] "m").lookup "b" with
       | some res => if res.Healthy then 0 else 1
       | none => 0) := by
  have hv : ValidTrace
      [("a", ProbeBehavior.ret none), ("b", ProbeBehavior.ret (some "unreachable"))]
      ["a", "b"] := ⟨by decide, by decide, by decide⟩
  exact ⟨hv, (C6_logging _ _ "m" hv).2 "b"⟩

/-! ### Heap lemmas for the `Ticker` snapshot -/

theorem Heap.read_alloc_old (h : Heap) (r : Results) (ref : Nat)
    (href : ref < h.cells.length) :
    (h.alloc r).1.read ref = h.read ref := by
  unfold Heap.alloc Heap.read
  rw [List.getElem?_append_left href]

theorem Heap.read_alloc_new (h : Heap) (r : Results) :
    (h.alloc r).1.read (h.alloc r).2 = r := by
  unfold Heap.alloc Heap.read
  rw [List.getElem?_concat_length]
  rfl

theorem Heap.read_write_ne (h : Heap) (ref ref' : Nat) (r : Results) (hne : ref ≠ ref') :
    (h.write ref r).read ref' = h.read ref' := by
  unfold Heap.write Heap.read
  rw [List.getElem?_set_ne hne]

/-- **C7** (Snapshot is a defensive copy): `GetResults` returns a freshly
allocated map distinct from the cached one; mutating the returned map (a
heap write through the returned reference) leaves the cached map unchanged,
and a later `GetResults` still observes the cached contents, not the
caller's mutation. -/
theorem C7_defensive_copy (h : Heap) (ref : Nat) (v : Results)
    (href : ref < h.cells.length) :
    (Ticker.GetResults h ⟨some ref⟩).2 ≠ ref ∧
    (((Ticker.GetResults h ⟨some ref⟩).1.write (Ticker.GetResults h ⟨some ref⟩).2 v).read ref
      = h.read ref) ∧
    ((Ticker.GetResults
        ((Ticker.GetResults h ⟨some ref⟩).1.write (Ticker.GetResults h ⟨some ref⟩).2 v)
        ⟨some ref⟩).1.read
      (Ticker.GetResults ((Ticker.GetResults h ⟨some ref⟩).1.write
          (Ticker.GetResults h ⟨some ref⟩).2 v) ⟨some ref⟩).2
      = copyEntries (h.read ref)) := by
  have hne : (Ticker.GetResults h ⟨some ref⟩).2 ≠ ref := Nat.ne_of_gt href
  have hcache : (((Ticker.GetResults h ⟨some ref⟩).1.write
      (Ticker.GetResults h ⟨some ref⟩).2 v).read ref) = h.read ref := by
    rw [Heap.read_write_ne _ _ _ _ hne]
    exact Heap.read_alloc_old h _ ref href
  refine ⟨hne, hcache, ?_⟩
  have hexp : Ticker.GetResults
      ((Ticker.GetResults h ⟨some ref⟩).1.write (Ticker.GetResults h ⟨some ref⟩).2 v)
      ⟨some ref⟩ =
    ((Ticker.GetResults h ⟨some ref⟩).1.write (Ticker.GetResults h ⟨some ref⟩).2 v).alloc
      (copyEntries (((Ticker.GetResults h ⟨some ref⟩).1.write
        (Ticker.GetResults h ⟨some ref⟩).2 v).read ref)) := rfl
  rw [hexp, Heap.read_alloc_new, hcache]

/-- Witness for C7 at a one-cell heap. -/
theorem C7_defensive_copy_witness :
    (0 : Nat) < (Heap.mk [[("a", ⟨false, "x", ""⟩)]]).cells.length ∧
    ((Ticker.GetResults (Heap.mk [[("a", ⟨false, "x", ""⟩)]]) ⟨some 0⟩).1.write
        (Ticker.GetResults (Heap.mk [[("a", ⟨false, "x", ""⟩)]]) ⟨some 0⟩).2 []).read 0
      = (Heap.mk [[("a", ⟨false, "x", ""⟩)]]).read 0 := by
  refine ⟨by decide, ?_⟩
  exact (C7_defensive_copy (Heap.mk [[("a", ⟨false, "x", ""⟩)]]) 0 [] (by decide)).2.1

/-- **C10** (never-run `Ticker` reports healthy): with a nil cached map,
`GetResults` returns a freshly allocated empty (non-nil) map, `Failed` on
the empty map is false, and `ServeHTTP` answers 200. -/
theorem C10_never_run (h : Heap) :
    (Ticker.GetResults h ⟨none⟩).1.read (Ticker.GetResults h ⟨none⟩).2 = [] ∧
    (Ticker.GetResults h ⟨none⟩).2 < (Ticker.GetResults h ⟨none⟩).1.cells.length ∧
    Results.Failed [] = false ∧
    Ticker.serveStatus none = 200 := by
  refine ⟨Heap.read_alloc_new h [], ?_, rfl, rfl⟩
  show h.cells.length < (h.cells ++ [[]]).length
  simp

/-- **C8** (Snapshot isolation): starting from an idle writer whose shared
cell holds the previously completed map, after any interleaving of
background-run steps the shared cell holds either the prior map or the full
output of a completed `Tester.Run` — a concurrent reader never observes a
partially populated map; moreover any pending map the writer is about to
swap in is itself a full run output, so the swap is atomic for readers. -/
theorem C8_snapshot_isolation (tests : TestFuncs) (w0 w : RunnerWorld)
    (hinit : w0.pending = none) (hreach : TickReaches tests w0 w) :
    (w.cell = w0.cell ∨ ∃ arrived msg, ValidTrace tests arrived ∧
      w.cell = Tester.Run tests arrived msg) ∧
    (∀ r, w.pending = some r → ∃ arrived msg, ValidTrace tests arrived ∧
      r = Tester.Run tests arrived msg) := by
  induction hreach with
  | refl =>
      refine ⟨Or.inl rfl, fun r hr => ?_⟩
      rw [hinit] at hr
      cases hr
  | tail hab hbc ih =>
      cases hbc with
      | compute cl arrived msg hvt =>
          refine ⟨ih.1, fun r hr => ?_⟩
          injection hr with hr2
          exact ⟨arrived, msg, hvt, hr2.symm⟩
      | swap cl r =>
          refine ⟨?_, fun r2 hr2 => by cases hr2⟩
          obtain ⟨arrived, msg, hvt, hrr⟩ := ih.2 r rfl
          exact Or.inr ⟨arrived, msg, hvt, hrr⟩

/-- Witness for C8: the initial world is trivially reachable from itself. -/
theorem C8_snapshot_isolation_witness :
    ((⟨[("a", ⟨true, "", ""⟩)], none⟩ : RunnerWorld).cell =
        (⟨[("a", ⟨true, "", ""⟩)], none⟩ : RunnerWorld).cell ∨
      ∃ arrived msg, ValidTrace [("a", ProbeBehavior.ret none)] arrived ∧
        (⟨[("a", ⟨true, "", ""⟩)], none⟩ : RunnerWorld).cell =
          Tester.Run [("a", ProbeBehavior.ret none)] arrived msg) ∧
    (∀ r, (⟨[("a", ⟨true, "", ""⟩)], none⟩ : RunnerWorld).pending = some r →
      ∃ arrived msg, ValidTrace [("a", ProbeBehavior.ret none)] arrived ∧
        r = Tester.Run [("a", ProbeBehavior.ret none)] arrived msg) :=
  C8_snapshot_isolation [("a", ProbeBehavior.ret none)] _ _ rfl Relation.ReflTransGen.refl

/-! ### Lifecycle lemmas -/

theorem stop_state (s : LifeState)
    (h : s.active = (match s.cancel with | some t => [t] | none => [])) :
    (Ticker.Stop s).active = [] ∧ (Ticker.Stop s).cancel = none := by
  cases hc : s.cancel with
  | none =>
      rw [hc] at h
      constructor
      · simp [Ticker.Stop, hc, h]
      · simp [Ticker.Stop, hc]
  | some t =>
      rw [hc] at h
      constructor
      · simp [Ticker.Stop, hc, h]
      · simp [Ticker.Stop, hc]

theorem life_step (s : LifeState) (op : LifeOp)
    (h : s.active = (match s.cancel with | some t => [t] | none => [])) :
    (applyOp s op).active =
      (match (applyOp s op).cancel with | some t => [t] | none => []) := by
  cases op with
  | stop =>
      obtain ⟨h1, h2⟩ := stop_state s h
      simp [applyOp, h1, h2]
  | start =>
      obtain ⟨h1, h2⟩ := stop_state s h
      simp [applyOp, Ticker.Start, h1]

theorem life_invariant_aux (ops : List LifeOp) (s : LifeState)
    (h : s.active = (match s.cancel with | some t => [t] | none => [])) :
    (ops.foldl applyOp s).active =
      (match (ops.foldl applyOp s).cancel with | some t => [t] | none => []) := by
  induction ops generalizing s with
  | nil => exact h
  | cons op rest ih =>
      simp only [List.foldl_cons]
      exact ih _ (life_step s op h)

/-- **C9** (Restart idempotence and lifecycle): after any sequence of
Start/Stop calls on a fresh `Ticker`, two successive `Start` calls leave
exactly one active background loop — the one controlled by the stored
cancel function; `Stop` when already stopped is a no-op; and a second
`Stop` in a row does nothing. -/
theorem C9_lifecycle (ops : List LifeOp) :
    (∃ t, (Ticker.Start (Ticker.Start (runOps ops))).active = [t] ∧
      (Ticker.Start (Ticker.Start (runOps ops))).cancel = some t) ∧
    ((runOps ops).cancel = none → Ticker.Stop (runOps ops) = runOps ops) ∧
    Ticker.Stop (Ticker.Stop (runOps ops)) = Ticker.Stop (runOps ops) := by
  have hinv : (runOps ops).active =
      (match (runOps ops).cancel with | some t => [t] | none => []) :=
    life_invariant_aux ops initLife rfl
  refine ⟨?_, ?_, ?_⟩
  · have hstep1 := life_step (runOps ops) .start hinv
    have hstep2 := life_step (applyOp (runOps ops) .start) .start hstep1
    have heq : applyOp (applyOp (runOps ops) .start) .start =
        Ticker.Start (Ticker.Start (runOps ops)) := rfl
    rw [heq] at hstep2
    exact ⟨(Ticker.Stop (Ticker.Start (runOps ops))).next, by rw [hstep2]; rfl, rfl⟩
  · intro hc
    simp [Ticker.Stop, hc]
  · have hnone : (Ticker.Stop (runOps ops)).cancel = none := by
      cases hc : (runOps ops).cancel <;> simp [Ticker.Stop, hc]
    have hgen : ∀ x : LifeState, x.cancel = none → Ticker.Stop x = x := by
      intro x hx
      simp [Ticker.Stop, hx]
    exact hgen _ hnone

/-- Witness for C9 on the empty call sequence. -/
theorem C9_lifecycle_witness :
    (∃ t, (Ticker.Start (Ticker.Start (runOps []))).active = [t] ∧
      (Ticker.Start (Ticker.Start (runOps []))).cancel = some t) ∧
    Ticker.Stop (runOps []) = runOps [] ∧
    Ticker.Stop (Ticker.Stop (runOps [])) = Ticker.Stop (runOps []) := by
  have h := C9_lifecycle []
  exact ⟨h.1, h.2.1 rfl, h.2.2⟩

end Health
